import Mathlib

/-!
Verification development for the fuzzy pooling notebook
(`Fuzzy_Pooling_Updated_MNIST_Dataset.ipynb`).  The per-window fuzzy
pooling computation, the RegP regularization accumulator, the forward
passes of the plain and RegP pooling layers, and the per-batch training
loss are embedded as Lean functions over exact real arithmetic; the
notebook's floating-point tensors are idealized as real numbers, and a
feature map is a quadruple of dimensions together with an indexing
function.
-/

noncomputable section

/-- Additive epsilon used by the pooling layer (`1e-8`). -/
def eps : ℝ := 1 / 100000000

/-- Maximum of a list of reals (`torch.max` along a spatial dimension);
defaults to 0 on the empty list, which never arises for a real window. -/
def listMax : List ℝ → ℝ
  | [] => 0
  | a :: t => t.foldl max a

/-- Minimum of a list of reals (`torch.min` along a spatial dimension);
defaults to 0 on the empty list. -/
def listMin : List ℝ → ℝ
  | [] => 0
  | a :: t => t.foldl min a

/-!
Per-window primitives of `FuzzyPoolingLayer` (notebook cells 3 and 16):
a pooling window extracted from a feature map is a list of rows, each
row a list of reals.
-/

/-- All elements of a window, flattened (the window viewed over both
spatial axes at once, as in `dim=(2, 3)` reductions). -/
def wVals (w : List (List ℝ)) : List ℝ := w.flatten

/-- Mean of a window over its two spatial axes (`window.mean(dim=(2, 3))`). -/
def wMean (w : List (List ℝ)) : ℝ := (wVals w).sum / (wVals w).length

/-- Standard deviation of a window over its two spatial axes plus the
additive epsilon (`window.std(dim=(2, 3)) + 1e-8`).  `torch.std` uses the
unbiased estimator, dividing the squared deviations by `n - 1`. -/
def wStd (w : List (List ℝ)) : ℝ :=
  Real.sqrt (((wVals w).map fun v => (v - wMean w) ^ 2).sum / ((wVals w).length - 1)) + eps

/-- Gaussian membership function (`gaussian_membership` in the source):
`exp(-((x - mean)**2) / (2 * std**2))`. -/
def gaussian_membership (x mean std : ℝ) : ℝ :=
  Real.exp (-((x - mean) ^ 2) / (2 * std ^ 2))

/-- Membership of one window element, using the window's own mean and
(epsilon-augmented) standard deviation, as in the `forward` body. -/
def memb (w : List (List ℝ)) (v : ℝ) : ℝ :=
  gaussian_membership v (wMean w) (wStd w)

/-- Sum of all membership values of the window
(`gmf.sum(dim=(2, 3))`). -/
def membSum (w : List (List ℝ)) : ℝ := ((wVals w).map (memb w)).sum

/-- Dominance threshold: maximum membership along the last spatial axis
(within each row), then minimum of those maxima along the other axis
(`torch.min(torch.max(gmf, dim=3)[0], dim=2)[0]`). -/
def threshold (w : List (List ℝ)) : ℝ :=
  listMin (w.map fun row => listMax (row.map (memb w)))

/-- Pooled value of one window: dominant-masked values
(`window * (gmf >= threshold).float()`) times normalized weights
(`gmf / (gmf.sum(dim=(2,3)) + 1e-8)`), summed over the window. -/
def poolWindow (w : List (List ℝ)) : ℝ :=
  ((wVals w).map fun v =>
    (if threshold w ≤ memb w v then v else 0) * (memb w v / (membSum w + eps))).sum

/-- Sum of squared membership values of one window slice
(`torch.sum(gmf ** 2, dim=(2, 3))` in `regularization_penalty`). -/
def sumSqMemb (w : List (List ℝ)) : ℝ := ((wVals w).map fun v => (memb w v) ^ 2).sum

/-!
Feature maps and the full forward passes.  A feature map is a quadruple
of dimensions (batch, channels, height, width) with an indexing function,
mirroring `x.size()` followed by element access.  The window loops
`for i in range(0, height, pool_size)` visit every multiple of
`pool_size` below the spatial extent — including the start of a partial
window when the extent is not divisible — and each iteration writes to
output position `i // pool_size`; a write whose index reaches the
allocated output extent raises an index error, which is modeled by the
forward pass returning `none`.
-/

/-- A 4-dimensional feature map (batch, channel, row, column). -/
structure Tensor4 where
  B : ℕ
  C : ℕ
  H : ℕ
  W : ℕ
  data : ℕ → ℕ → ℕ → ℕ → ℝ

/-- The indices visited by Python's `range(0, n, p)`: all multiples of
`p` below `n`, i.e. `k * p` for `k < ⌈n / p⌉`. -/
def pyRange (n p : ℕ) : List ℕ := (List.range ((n + p - 1) / p)).map (· * p)

/-- The pooling window of `x` at batch `b`, channel `c`, with top-left
spatial corner `(i, j)`: the slice `x[b, c, i:i+p, j:j+p]`, which Python
clamps to the tensor extent, so a window touching the border has fewer
than `p` rows or columns. -/
def extractWindow (x : Tensor4) (p b c i j : ℕ) : List (List ℝ) :=
  (List.range (min p (x.H - i))).map fun r =>
    (List.range (min p (x.W - j))).map fun s => x.data b c (i + r) (j + s)

/-- Every output write of the window loop along one spatial dimension is
in bounds: `i // p < n // p` for each loop index `i`. -/
def writesOk (n p : ℕ) : Bool := (pyRange n p).all fun i => i / p < n / p

/-- Forward pass of the plain `FuzzyPoolingLayer` (notebook cell 3).
The output is allocated with spatial extent `(H // p, W // p)`; each
window's pooled value is written at `(i // p, j // p)`.  If any write
falls outside the allocated extent (which happens exactly when a spatial
extent is not divisible by `p`), the pass raises and yields no tensor. -/
def FuzzyPoolingLayer.forward (p : ℕ) (x : Tensor4) : Option Tensor4 :=
  if writesOk x.H p && writesOk x.W p then
    some { B := x.B, C := x.C, H := x.H / p, W := x.W / p,
           data := fun b c oi oj =>
             if b < x.B ∧ c < x.C ∧ oi < x.H / p ∧ oj < x.W / p then
               poolWindow (extractWindow x p b c (oi * p) (oj * p))
             else 0 }
  else none

/-- RegP penalty for the windows at spatial corner `(i, j)` (method
`regularization_penalty` of the RegP layer, cell 16):
`reg_lambda * torch.sum(gmf ** 2, dim=(2, 3)).mean()`, the mean running
over the batch and channel axes. -/
def FuzzyPoolingLayerRegP.regularization_penalty
    (lam : ℝ) (x : Tensor4) (p i j : ℕ) : ℝ :=
  lam * (((List.range x.B).map fun b =>
    ((List.range x.C).map fun c => sumSqMemb (extractWindow x p b c i j)).sum).sum
      / (x.B * x.C))

/-- Running total of the RegP penalty over all window positions
(`regp_total` accumulated inside the loop of cell 16). -/
def regpTotal (lam : ℝ) (x : Tensor4) (p : ℕ) : ℝ :=
  ((pyRange x.H p).map fun i =>
    ((pyRange x.W p).map fun j =>
      FuzzyPoolingLayerRegP.regularization_penalty lam x p i j).sum).sum

/-- The RegP scalar exposed after a forward pass:
`self.regp_loss = regp_total / (batch_size * channels)`. -/
def regpLoss (lam : ℝ) (x : Tensor4) (p : ℕ) : ℝ :=
  regpTotal lam x p / (x.B * x.C)

/-- Forward pass of the RegP `FuzzyPoolingLayer` (notebook cell 16): the
same pooled output as the plain layer, paired with the regularization
scalar stored in `self.regp_loss`. -/
def FuzzyPoolingLayerRegP.forward (p : ℕ) (lam : ℝ) (x : Tensor4) :
    Option (Tensor4 × ℝ) :=
  if writesOk x.H p && writesOk x.W p then
    some ({ B := x.B, C := x.C, H := x.H / p, W := x.W / p,
            data := fun b c oi oj =>
              if b < x.B ∧ c < x.C ∧ oi < x.H / p ∧ oj < x.W / p then
                poolWindow (extractWindow x p b c (oi * p) (oj * p))
              else 0 },
          regpLoss lam x p)
  else none

/-- Reference per-window computation, written as the specification's
step list describes it (4.2 steps 2–6): build the membership map of the
window; take the dominance threshold as the minimum over one spatial
axis of the maximum of the membership map over the other axis; mark
elements dominant when their membership reaches the threshold (ties
included); normalize weights by the total membership mass of the window
plus epsilon; and sum dominant-masked input values times normalized
weights. -/
def refPool (w : List (List ℝ)) : ℝ :=
  let mmap := w.map fun row => row.map (memb w)
  let th := listMin (mmap.map listMax)
  let S := (mmap.map List.sum).sum
  ((w.zip mmap).map fun rm =>
    ((rm.1.zip rm.2).map fun vm =>
      (if th ≤ vm.2 then vm.1 else 0) * (vm.2 / (S + eps))).sum).sum

/-- Total of `sum(membership²)` accumulated over all window positions,
batch items and channels of one forward pass. -/
def regpGrandTotal (x : Tensor4) (p : ℕ) : ℝ :=
  ((pyRange x.H p).map fun i =>
    ((pyRange x.W p).map fun j =>
      ((List.range x.B).map fun b =>
        ((List.range x.C).map fun c => sumSqMemb (extractWindow x p b c i j)).sum).sum).sum).sum

/-- Cross-entropy of one sample (`nn.CrossEntropyLoss` on one row of
class scores against an integer label): `log(sum(exp(z))) - z[y]`. -/
def crossEntropyOne (z : List ℝ) (y : ℕ) : ℝ :=
  Real.log ((z.map Real.exp).sum) - z.getD y 0

/-- Batch cross-entropy with mean reduction, the `criterion` used by the
training loop (`nn.CrossEntropyLoss()`). -/
def crossEntropyLoss (outs : List (List ℝ)) (ys : List ℕ) : ℝ :=
  ((outs.zip ys).map fun oy => crossEntropyOne oy.1 oy.2).sum / outs.length

/-- Per-batch loss backpropagated and stepped by `train` (cell 5):
`loss = criterion(outputs, labels)` followed by `loss.backward()` and
`optimizer.step()`.  The RegP scalar that the model exposes to the loop
via `get_regp_loss()` is never read by `train`, so it is an unused
argument here. -/
def trainBatchLoss (outs : List (List ℝ)) (ys : List ℕ) (_regp : ℝ) : ℝ :=
  crossEntropyLoss outs ys

/-- A 1×1×2×2 constant feature map of ones. -/
def X1 : Tensor4 := ⟨1, 1, 2, 2, fun _ _ _ _ => 1⟩

/-- A 2×1×2×2 constant feature map of ones (two batch items). -/
def X2 : Tensor4 := ⟨2, 1, 2, 2, fun _ _ _ _ => 1⟩

/-- A 1×1×3×2 feature map: height 3 is not divisible by pool size 2. -/
def X3 : Tensor4 := ⟨1, 1, 3, 2, fun _ _ _ _ => 0⟩

/-- A 1×1×2×3 feature map: width 3 is not divisible by pool size 2. -/
def X4 : Tensor4 := ⟨1, 1, 2, 3, fun _ _ _ _ => 0⟩

end

/-!
General list lemmas used throughout.
-/

lemma eps_pos : 0 < eps := by norm_num [eps]

lemma le_foldl_max (l : List ℝ) (a : ℝ) : a ≤ l.foldl max a := by
  induction l generalizing a with
  | nil => exact le_refl a
  | cons b t ih => exact le_trans (le_max_left a b) (ih (max a b))

lemma mem_le_foldl_max (l : List ℝ) (a x : ℝ) (hx : x ∈ l) : x ≤ l.foldl max a := by
  induction l generalizing a with
  | nil => cases hx
  | cons b t ih =>
    rcases List.mem_cons.mp hx with h | h
    · subst h
      exact le_trans (le_max_right a x) (le_foldl_max t (max a x))
    · exact ih (max a b) h

lemma foldl_max_le (l : List ℝ) (a b : ℝ) (ha : a ≤ b) (h : ∀ x ∈ l, x ≤ b) :
    l.foldl max a ≤ b := by
  induction l generalizing a with
  | nil => exact ha
  | cons c t ih =>
    exact ih (max a c) (max_le ha (h c (List.mem_cons_self c t)))
      (fun x hx => h x (List.mem_cons_of_mem c hx))

lemma foldl_min_le (l : List ℝ) (a : ℝ) : l.foldl min a ≤ a := by
  induction l generalizing a with
  | nil => exact le_refl a
  | cons b t ih => exact le_trans (ih (min a b)) (min_le_left a b)

lemma foldl_min_le_mem (l : List ℝ) (a x : ℝ) (hx : x ∈ l) : l.foldl min a ≤ x := by
  induction l generalizing a with
  | nil => cases hx
  | cons b t ih =>
    rcases List.mem_cons.mp hx with h | h
    · subst h
      exact le_trans (foldl_min_le t (min a x)) (min_le_right a x)
    · exact ih (min a b) h

lemma le_listMax (l : List ℝ) (x : ℝ) (hx : x ∈ l) : x ≤ listMax l := by
  cases l with
  | nil => cases hx
  | cons a t =>
    rcases List.mem_cons.mp hx with h | h
    · subst h; exact le_foldl_max t x
    · exact mem_le_foldl_max t a x h

lemma listMin_le (l : List ℝ) (x : ℝ) (hx : x ∈ l) : listMin l ≤ x := by
  cases l with
  | nil => cases hx
  | cons a t =>
    rcases List.mem_cons.mp hx with h | h
    · subst h; exact foldl_min_le t x
    · exact foldl_min_le_mem t a x h

lemma listMax_le_of_all (l : List ℝ) (b : ℝ) (h : ∀ x ∈ l, x ≤ b) (hb : 0 ≤ b) :
    listMax l ≤ b := by
  cases l with
  | nil => exact hb
  | cons a t =>
    exact foldl_max_le t a b (h a (List.mem_cons_self a t))
      (fun x hx => h x (List.mem_cons_of_mem a hx))

lemma listMin_le_of_all (l : List ℝ) (b : ℝ) (h : ∀ x ∈ l, x ≤ b) (hb : 0 ≤ b) :
    listMin l ≤ b := by
  cases l with
  | nil => exact hb
  | cons a t =>
    exact le_trans (listMin_le (a :: t) a (List.mem_cons_self a t))
      (h a (List.mem_cons_self a t))

lemma sum_nonneg_list (l : List ℝ) (h : ∀ x ∈ l, (0:ℝ) ≤ x) : 0 ≤ l.sum := by
  induction l with
  | nil => simp
  | cons a t ih =>
    simp only [List.sum_cons]
    exact add_nonneg (h a (List.mem_cons_self a t))
      (ih (fun x hx => h x (List.mem_cons_of_mem a hx)))

lemma sum_le_sum_list {α : Type} (l : List α) (f g : α → ℝ)
    (h : ∀ a ∈ l, f a ≤ g a) : (l.map f).sum ≤ (l.map g).sum := by
  induction l with
  | nil => simp
  | cons a t ih =>
    simp only [List.map_cons, List.sum_cons]
    exact add_le_add (h a (List.mem_cons_self a t))
      (ih (fun x hx => h x (List.mem_cons_of_mem a hx)))

lemma sum_map_mul_left_list {α : Type} (l : List α) (r : ℝ) (f : α → ℝ) :
    (l.map fun a => r * f a).sum = r * (l.map f).sum := by
  induction l with
  | nil => simp
  | cons a t ih => simp [ih, mul_add]

lemma sum_map_mul_right_list {α : Type} (l : List α) (f : α → ℝ) (r : ℝ) :
    (l.map fun a => f a * r).sum = (l.map f).sum * r := by
  induction l with
  | nil => simp
  | cons a t ih => simp [ih, add_mul]

lemma sum_const_of_all_eq (l : List ℝ) (c : ℝ) (h : ∀ x ∈ l, x = c) :
    l.sum = l.length * c := by
  induction l with
  | nil => simp
  | cons a t ih =>
    simp only [List.sum_cons, List.length_cons]
    rw [h a (List.mem_cons_self a t), ih (fun x hx => h x (List.mem_cons_of_mem a hx))]
    push_cast
    ring

lemma sum_map_mul_div_list {α : Type} (l : List α) (f : α → ℝ) (r d : ℝ) :
    (l.map fun a => r * (f a / d)).sum = r * (l.map f).sum / d := by
  induction l with
  | nil => simp
  | cons a t ih =>
    simp only [List.map_cons, List.sum_cons, ih]
    ring

lemma sum_map_mul_div_list2 {α : Type} (l : List α) (f : α → ℝ) (r d : ℝ) :
    (l.map fun a => r * f a / d).sum = r * (l.map f).sum / d := by
  induction l with
  | nil => simp
  | cons a t ih =>
    simp only [List.map_cons, List.sum_cons, ih]
    ring

lemma zip_map_self_eq {α β γ : Type} (l : List α) (f : α → β) (F : α × β → γ) :
    (l.zip (l.map f)).map F = l.map fun a => F (a, f a) := by
  induction l with
  | nil => rfl
  | cons a t ih => simp only [List.map_cons, List.zip_cons_cons, ih]

lemma sum_map_flatten (L : List (List ℝ)) (h : ℝ → ℝ) :
    ((L.flatten).map h).sum = (L.map fun row => (row.map h).sum).sum := by
  induction L with
  | nil => rfl
  | cons r t ih =>
    simp [List.map_append, List.sum_append, ih]
    rfl

/-!
Basic positivity facts about the window primitives.
-/

lemma memb_pos (w : List (List ℝ)) (v : ℝ) : 0 < memb w v :=
  Real.exp_pos _

lemma membSum_nonneg (w : List (List ℝ)) : 0 ≤ membSum w :=
  sum_nonneg_list _ (by
    intro x hx
    rcases List.mem_map.mp hx with ⟨v, _, rfl⟩
    exact (memb_pos w v).le)

lemma wStd_pos (w : List (List ℝ)) : 0 < wStd w :=
  add_pos_of_nonneg_of_pos (Real.sqrt_nonneg _) eps_pos

/-!
Constant windows: when every element of a window equals `c`, the mean is
`c`, every membership is `exp 0 = 1`, the threshold is at most `1`, and
every element is dominant.
-/

lemma wMean_all_eq (w : List (List ℝ)) (c : ℝ)
    (h : ∀ v ∈ wVals w, v = c) (hn : wVals w ≠ []) : wMean w = c := by
  unfold wMean
  rw [sum_const_of_all_eq (wVals w) c h]
  have hlen : ((wVals w).length : ℝ) ≠ 0 := by
    exact_mod_cast (List.length_pos.mpr hn).ne'
  field_simp

lemma memb_all_eq (w : List (List ℝ)) (c : ℝ)
    (h : ∀ v ∈ wVals w, v = c) (hn : wVals w ≠ []) :
    ∀ v ∈ wVals w, memb w v = 1 := by
  intro v hv
  unfold memb gaussian_membership
  rw [wMean_all_eq w c h hn, h v hv]
  simp

lemma membSum_all_eq (w : List (List ℝ)) (c : ℝ)
    (h : ∀ v ∈ wVals w, v = c) (hn : wVals w ≠ []) :
    membSum w = (wVals w).length := by
  unfold membSum
  have : ∀ x ∈ (wVals w).map (memb w), x = (1:ℝ) := by
    intro x hx
    rcases List.mem_map.mp hx with ⟨v, hv, rfl⟩
    exact memb_all_eq w c h hn v hv
  rw [sum_const_of_all_eq _ 1 this]
  simp

lemma threshold_le_one_of_all_eq (w : List (List ℝ)) (c : ℝ)
    (h : ∀ v ∈ wVals w, v = c) (hn : wVals w ≠ []) : threshold w ≤ 1 := by
  unfold threshold
  apply listMin_le_of_all _ _ _ zero_le_one
  intro x hx
  rcases List.mem_map.mp hx with ⟨row, hrow, rfl⟩
  apply listMax_le_of_all _ _ _ zero_le_one
  intro y hy
  rcases List.mem_map.mp hy with ⟨v, hv, rfl⟩
  exact le_of_eq (memb_all_eq w c h hn v (List.mem_flatten.mpr ⟨row, hrow, hv⟩))

/-- On a window all of whose elements equal `c`, the pooled value is
`c * n / (n + eps)` where `n` is the number of window elements: the
membership map is identically 1, the threshold is at most 1, every
element is dominant, and each weight is `1 / (n + eps)`. -/
lemma poolWindow_all_eq (w : List (List ℝ)) (c : ℝ)
    (h : ∀ v ∈ wVals w, v = c) (hn : wVals w ≠ []) :
    poolWindow w = c * (wVals w).length / ((wVals w).length + eps) := by
  unfold poolWindow
  have hterm : ∀ x ∈ (wVals w).map (fun v =>
      (if threshold w ≤ memb w v then v else 0) * (memb w v / (membSum w + eps))),
      x = c * (1 / ((wVals w).length + eps)) := by
    intro x hx
    rcases List.mem_map.mp hx with ⟨v, hv, rfl⟩
    rw [memb_all_eq w c h hn v hv, if_pos (threshold_le_one_of_all_eq w c h hn),
      membSum_all_eq w c h hn, h v hv]
  rw [sum_const_of_all_eq _ _ hterm]
  simp only [List.length_map]
  ring

lemma sumSqMemb_all_eq (w : List (List ℝ)) (c : ℝ)
    (h : ∀ v ∈ wVals w, v = c) (hn : wVals w ≠ []) :
    sumSqMemb w = (wVals w).length := by
  unfold sumSqMemb
  have : ∀ x ∈ (wVals w).map (fun v => (memb w v) ^ 2), x = (1:ℝ) := by
    intro x hx
    rcases List.mem_map.mp hx with ⟨v, hv, rfl⟩
    rw [memb_all_eq w c h hn v hv]
    norm_num
  rw [sum_const_of_all_eq _ 1 this]
  simp

/-!
Range of the pooled value.  The dominant-masked weights are non-negative
and sum to at most `S / (S + eps) ≤ 1`, where `S` is the membership sum,
so the pooled value is a sub-convex combination of the window values and
the implicit value `0` contributed by non-dominant elements.
-/

lemma weight_nonneg (w : List (List ℝ)) (v : ℝ) :
    0 ≤ memb w v / (membSum w + eps) :=
  div_nonneg (memb_pos w v).le
    (add_pos_of_nonneg_of_pos (membSum_nonneg w) eps_pos).le

lemma sum_weights_le_one (w : List (List ℝ)) :
    ((wVals w).map fun v => memb w v / (membSum w + eps)).sum ≤ 1 := by
  have hden : 0 < membSum w + eps :=
    add_pos_of_nonneg_of_pos (membSum_nonneg w) eps_pos
  have hrw : ((wVals w).map fun v => memb w v / (membSum w + eps)).sum
      = membSum w / (membSum w + eps) := by
    simp only [div_eq_mul_inv]
    rw [sum_map_mul_right_list]
    rfl
  rw [hrw, div_le_one hden]
  exact le_add_of_nonneg_right eps_pos.le

/-- The pooled value of every window lies in the interval between
`min 0 (min window)` and `max 0 (max window)`. -/
lemma poolWindow_bounds (w : List (List ℝ)) :
    min 0 (listMin (wVals w)) ≤ poolWindow w ∧
      poolWindow w ≤ max 0 (listMax (wVals w)) := by
  have hwt := weight_nonneg w
  have hsum := sum_weights_le_one w
  constructor
  · set m0 := min 0 (listMin (wVals w)) with hm0def
    have hm0 : m0 ≤ 0 := min_le_left _ _
    have hpt : ∀ v ∈ wVals w,
        m0 * (memb w v / (membSum w + eps)) ≤
          (if threshold w ≤ memb w v then v else 0) * (memb w v / (membSum w + eps)) := by
      intro v hv
      by_cases hd : threshold w ≤ memb w v
      · rw [if_pos hd]
        exact mul_le_mul_of_nonneg_right
          (le_trans (min_le_right 0 _) (listMin_le _ v hv)) (hwt v)
      · rw [if_neg hd, zero_mul]
        exact mul_nonpos_iff.mpr (Or.inr ⟨hm0, hwt v⟩)
    have h1 : ((wVals w).map fun v => m0 * (memb w v / (membSum w + eps))).sum ≤
        poolWindow w := sum_le_sum_list _ _ _ hpt
    rw [sum_map_mul_left_list] at h1
    calc m0 = m0 * 1 := (mul_one m0).symm
      _ ≤ m0 * ((wVals w).map fun v => memb w v / (membSum w + eps)).sum :=
          mul_le_mul_of_nonpos_left hsum hm0
      _ ≤ poolWindow w := h1
  · set M := max 0 (listMax (wVals w)) with hMdef
    have hM : 0 ≤ M := le_max_left _ _
    have hpt : ∀ v ∈ wVals w,
        (if threshold w ≤ memb w v then v else 0) * (memb w v / (membSum w + eps)) ≤
          M * (memb w v / (membSum w + eps)) := by
      intro v hv
      by_cases hd : threshold w ≤ memb w v
      · rw [if_pos hd]
        exact mul_le_mul_of_nonneg_right
          (le_trans (le_listMax _ v hv) (le_max_right 0 _)) (hwt v)
      · rw [if_neg hd, zero_mul]
        exact mul_nonneg hM (hwt v)
    have h1 : poolWindow w ≤
        ((wVals w).map fun v => M * (memb w v / (membSum w + eps))).sum :=
      sum_le_sum_list _ _ _ hpt
    rw [sum_map_mul_left_list] at h1
    calc poolWindow w
        ≤ M * ((wVals w).map fun v => memb w v / (membSum w + eps)).sum := h1
      _ ≤ M * 1 := mul_le_mul_of_nonneg_left hsum hM
      _ = M := mul_one M

/-!
Arithmetic of the loop index set: `range(0, n, p)` has `⌈n / p⌉` entries,
so the last output index is `⌈n / p⌉ - 1`, which is in bounds exactly
when `p` divides `n`.
-/

lemma ceil_div_of_dvd (n p : ℕ) (hp : 0 < p) (hd : p ∣ n) :
    (n + p - 1) / p = n / p := by
  rcases hd with ⟨k, rfl⟩
  have h1 : p * k + p - 1 = (p - 1) + p * k := by omega
  rw [h1, Nat.add_mul_div_left _ _ hp, Nat.div_eq_of_lt (by omega),
    Nat.mul_div_cancel_left _ hp, Nat.zero_add]

lemma ceil_div_of_not_dvd (n p : ℕ) (hp : 0 < p) (hn : ¬ p ∣ n) :
    (n + p - 1) / p = n / p + 1 := by
  have hmod := Nat.div_add_mod n p
  have hr : n % p ≠ 0 := fun h => hn (Nat.dvd_of_mod_eq_zero h)
  have hrlt : n % p < p := Nat.mod_lt n hp
  have h1 : n + p - 1 = (n % p + p - 1) + p * (n / p) := by omega
  rw [h1, Nat.add_mul_div_left _ _ hp]
  have h2 : (n % p + p - 1) / p = 1 := by
    apply Nat.div_eq_of_lt_le
    · omega
    · omega
  omega

lemma writesOk_of_dvd (n p : ℕ) (hp : 0 < p) (hd : p ∣ n) :
    writesOk n p = true := by
  rw [writesOk, List.all_eq_true]
  intro i hi
  simp only [pyRange, ceil_div_of_dvd n p hp hd, List.mem_map, List.mem_range] at hi
  rcases hi with ⟨t, ht, rfl⟩
  simp only [decide_eq_true_eq]
  rw [Nat.mul_div_cancel _ hp]
  exact ht

lemma writesOk_false_of_not_dvd (n p : ℕ) (hp : 0 < p) (hn : ¬ p ∣ n) :
    writesOk n p = false := by
  rw [Bool.eq_false_iff]
  intro hall
  rw [writesOk, List.all_eq_true] at hall
  have hmem : (n / p) * p ∈ pyRange n p := by
    simp only [pyRange, ceil_div_of_not_dvd n p hp hn, List.mem_map, List.mem_range]
    exact ⟨n / p, Nat.lt_succ_self _, rfl⟩
  have := hall _ hmem
  rw [Nat.mul_div_cancel _ hp] at this
  simp at this

/-!
Forward-pass lemmas.
-/

lemma forward_eq_some (p : ℕ) (x : Tensor4) (hp : 0 < p)
    (hH : p ∣ x.H) (hW : p ∣ x.W) :
    FuzzyPoolingLayer.forward p x =
      some { B := x.B, C := x.C, H := x.H / p, W := x.W / p,
             data := fun b c oi oj =>
               if b < x.B ∧ c < x.C ∧ oi < x.H / p ∧ oj < x.W / p then
                 poolWindow (extractWindow x p b c (oi * p) (oj * p))
               else 0 } := by
  rw [FuzzyPoolingLayer.forward, writesOk_of_dvd _ _ hp hH, writesOk_of_dvd _ _ hp hW]
  rfl

lemma forward_none_of_not_dvd (p : ℕ) (x : Tensor4) (hp : 0 < p)
    (h : ¬ p ∣ x.H ∨ ¬ p ∣ x.W) :
    FuzzyPoolingLayer.forward p x = none := by
  rw [FuzzyPoolingLayer.forward]
  rcases h with h | h
  · rw [writesOk_false_of_not_dvd _ _ hp h]
    rfl
  · rw [writesOk_false_of_not_dvd _ _ hp h, Bool.and_false]
    rfl

/-!
The per-window computation of the forward loop agrees with the
step-by-step reference computation.
-/

lemma poolWindow_eq_refPool (w : List (List ℝ)) : poolWindow w = refPool w := by
  simp only [refPool]
  rw [zip_map_self_eq]
  simp only [zip_map_self_eq, List.map_map, Function.comp_def]
  unfold poolWindow threshold membSum wVals
  simp only [← sum_map_flatten]

/-!
RegP algebra: the exposed scalar equals `reg_lambda` times the grand
total of squared memberships, divided by `(B * C)` twice.
-/

lemma sumSqMemb_nonneg (w : List (List ℝ)) : 0 ≤ sumSqMemb w :=
  sum_nonneg_list _ (by
    intro x hx
    rcases List.mem_map.mp hx with ⟨v, _, rfl⟩
    exact sq_nonneg _)

lemma regpGrandTotal_nonneg (x : Tensor4) (p : ℕ) : 0 ≤ regpGrandTotal x p := by
  apply sum_nonneg_list
  intro a ha
  rcases List.mem_map.mp ha with ⟨i, _, rfl⟩
  apply sum_nonneg_list
  intro b hb
  rcases List.mem_map.mp hb with ⟨j, _, rfl⟩
  apply sum_nonneg_list
  intro c hc
  rcases List.mem_map.mp hc with ⟨bb, _, rfl⟩
  apply sum_nonneg_list
  intro d hd
  rcases List.mem_map.mp hd with ⟨cc, _, rfl⟩
  exact sumSqMemb_nonneg _

lemma regpLoss_eq (lam : ℝ) (x : Tensor4) (p : ℕ) :
    regpLoss lam x p = lam * regpGrandTotal x p / (x.B * x.C : ℝ) ^ 2 := by
  unfold regpLoss regpTotal FuzzyPoolingLayerRegP.regularization_penalty regpGrandTotal
  simp only [sum_map_mul_div_list]
  rw [sum_map_mul_div_list2, div_div, ← sq]

/-!
Concrete-window evaluation helpers shared by several results below.
-/

lemma all_ones_window (v : ℝ) (hv : v ∈ wVals [[(1:ℝ), 1], [1, 1]]) : v = 1 := by
  simp [wVals] at hv
  tauto

lemma ones_window_ne_nil : wVals [[(1:ℝ), 1], [1, 1]] ≠ [] := by
  simp [wVals]

lemma poolWindow_ones : poolWindow [[(1:ℝ), 1], [1, 1]] = 4 / (4 + eps) := by
  have h := poolWindow_all_eq [[(1:ℝ), 1], [1, 1]] 1 all_ones_window ones_window_ne_nil
  simpa using h

lemma sumSqMemb_ones : sumSqMemb [[(1:ℝ), 1], [1, 1]] = 4 := by
  have h := sumSqMemb_all_eq [[(1:ℝ), 1], [1, 1]] 1 all_ones_window ones_window_ne_nil
  simpa using h

lemma regpGrandTotal_X2 : regpGrandTotal X2 2 = 8 := by
  have e0 : extractWindow X2 2 0 0 0 0 = [[(1:ℝ), 1], [1, 1]] := rfl
  have e1 : extractWindow X2 2 1 0 0 0 = [[(1:ℝ), 1], [1, 1]] := rfl
  show ((pyRange X2.H 2).map fun i =>
    ((pyRange X2.W 2).map fun j =>
      ((List.range X2.B).map fun b =>
        ((List.range X2.C).map fun c => sumSqMemb (extractWindow X2 2 b c i j)).sum).sum).sum).sum = 8
  rw [show pyRange X2.H 2 = [0] from rfl, show pyRange X2.W 2 = [0] from rfl,
    show List.range X2.B = [0, 1] from rfl, show List.range X2.C = [0] from rfl]
  simp only [List.map_cons, List.map_nil, List.sum_cons, List.sum_nil]
  rw [e0, e1, sumSqMemb_ones]
  norm_num

lemma regpLoss_X2 : regpLoss 1 X2 2 = 2 := by
  rw [regpLoss_eq, regpGrandTotal_X2]
  norm_num [X2]

/-!
Claims.
-/

/-- Claim C1: the spec says the backpropagated per-batch loss is the
cross-entropy plus the model's auxiliary RegP scalar.  The code's `train`
backpropagates `criterion(outputs, labels)` alone and never calls
`get_regp_loss`: at outputs `[[0, 0]]`, labels `[0]` and RegP scalar 2,
the stepped loss equals the plain cross-entropy and differs from
cross-entropy plus the scalar. -/
theorem trainBatchLoss_drops_regp :
    trainBatchLoss [[0, 0]] [0] 2 = crossEntropyLoss [[0, 0]] [0] ∧
      trainBatchLoss [[0, 0]] [0] 2 ≠ crossEntropyLoss [[0, 0]] [0] + 2 := by
  refine ⟨rfl, fun h => ?_⟩
  rw [trainBatchLoss] at h
  linarith

/-- Claim C2, counterexample: on a 2×1×2×2 all-ones input with
`reg_lambda = 1`, the exposed scalar is 2, but `reg_lambda` times the
grand total of squared memberships divided once by (B·C) is 4 — the code
divides by (B·C) a second time inside `regularization_penalty`'s mean. -/
theorem regpLoss_single_normalization_fails :
    regpLoss 1 X2 2 ≠ 1 * regpGrandTotal X2 2 / (X2.B * X2.C : ℝ) := by
  rw [regpLoss_X2, regpGrandTotal_X2]
  norm_num [X2]

/-- Claim C2, amended: the auxiliary scalar equals `reg_lambda` times the
total of `sum(membership²)` over all windows, batch items and channels,
divided by (B × C) twice — that is, normalized by (B × C)². -/
theorem regpLoss_double_normalization (lam : ℝ) (x : Tensor4) (p : ℕ) :
    regpLoss lam x p = lam * regpGrandTotal x p / (x.B * x.C : ℝ) ^ 2 :=
  regpLoss_eq lam x p

/-- Claim C3, counterexample: on the all-ones 2×2 window the pooled
value is `4 / (4 + eps)`, strictly below the window minimum 1, because
the weight normalization divides by the membership mass plus epsilon. -/
theorem poolWindow_below_window_min :
    poolWindow [[(1:ℝ), 1], [1, 1]] < listMin (wVals [[(1:ℝ), 1], [1, 1]]) := by
  have hm : listMin (wVals [[(1:ℝ), 1], [1, 1]]) = 1 := by
    simp [wVals, listMin]
  rw [poolWindow_ones, hm, div_lt_one (by norm_num [eps])]
  norm_num [eps]

/-- Claim C3, amended: the pooled value of every window lies within
`[min(0, min window), max(0, max window)]` — the dominant-masked weights
are non-negative and sum to at most 1, so the output is a sub-convex
combination of the window values and 0. -/
theorem poolWindow_extended_range (w : List (List ℝ)) :
    min 0 (listMin (wVals w)) ≤ poolWindow w ∧
      poolWindow w ≤ max 0 (listMax (wVals w)) :=
  poolWindow_bounds w

/-- Claim C4, counterexample: on a window with every element equal to 1
the pooled value is `4 / (4 + eps)`, not exactly 1 — the weight
normalization denominator carries the additive epsilon. -/
theorem poolWindow_const_not_exact : poolWindow [[(1:ℝ), 1], [1, 1]] ≠ 1 := by
  rw [poolWindow_ones]
  norm_num [eps]

/-- Claim C4, amended: on a window whose elements all equal `c`,
membership is 1 everywhere, the threshold is at most 1, every element is
dominant, and the pooled value is the unweighted average scaled by
`n / (n + eps)`, i.e. `c * n / (n + eps)` with `n` the element count
(exactly `c` only when `c = 0`). -/
theorem poolWindow_const_window (w : List (List ℝ)) (c : ℝ)
    (h : ∀ v ∈ wVals w, v = c) (hn : wVals w ≠ []) :
    poolWindow w = c * (wVals w).length / ((wVals w).length + eps) :=
  poolWindow_all_eq w c h hn

/-- Claim C4, witness for the amended statement at the all-ones 2×2
window. -/
theorem poolWindow_const_window_witness :
    poolWindow [[(1:ℝ), 1], [1, 1]] =
      1 * ((wVals [[(1:ℝ), 1], [1, 1]]).length : ℝ) /
        ((wVals [[(1:ℝ), 1], [1, 1]]).length + eps) :=
  poolWindow_const_window [[(1:ℝ), 1], [1, 1]] 1 all_ones_window ones_window_ne_nil

/-- Claim C5, counterexample: on a 1×1×3×2 input (height 3 not divisible
by pool size 2) the forward pass does not complete — the loop visits the
partial window at row 2 and writes to output row index 1, which is out
of bounds for the allocated extent `3 // 2 = 1`. -/
theorem forward_nondivisible_raises : FuzzyPoolingLayer.forward 2 X3 = none := rfl

/-- Claim C5, amended: whenever a spatial extent is not divisible by the
pool size, the forward pass attempts an out-of-bounds write at output
index `extent // pool_size` and raises instead of returning a truncated
map. -/
theorem forward_none_of_nondivisible (p : ℕ) (x : Tensor4) (hp : 0 < p)
    (h : ¬ p ∣ x.H ∨ ¬ p ∣ x.W) : FuzzyPoolingLayer.forward p x = none :=
  forward_none_of_not_dvd p x hp h

/-- Claim C5, witness for the amended statement: width 3 not divisible
by 2 also raises. -/
theorem forward_none_of_nondivisible_witness :
    FuzzyPoolingLayer.forward 2 X4 = none :=
  forward_none_of_nondivisible 2 X4 (by norm_num) (Or.inr (by decide))

/-- Claim C6: for every (batch, channel) slice and window position of a
divisible input, the forward pass's output value equals the reference
per-window computation (membership map, min-of-row-maxima threshold,
dominance with ties, full-map weight normalization, masked weighted
sum). -/
theorem forward_matches_reference (p : ℕ) (x : Tensor4) (b c oi oj : ℕ)
    (hp : 0 < p) (hH : p ∣ x.H) (hW : p ∣ x.W)
    (hb : b < x.B) (hc : c < x.C) (hoi : oi < x.H / p) (hoj : oj < x.W / p) :
    ∃ y, FuzzyPoolingLayer.forward p x = some y ∧
      y.data b c oi oj = refPool (extractWindow x p b c (oi * p) (oj * p)) := by
  refine ⟨_, forward_eq_some p x hp hH hW, ?_⟩
  rw [show (⟨x.B, x.C, x.H / p, x.W / p, fun b c oi oj =>
      if b < x.B ∧ c < x.C ∧ oi < x.H / p ∧ oj < x.W / p then
        poolWindow (extractWindow x p b c (oi * p) (oj * p))
      else 0⟩ : Tensor4).data b c oi oj =
      if b < x.B ∧ c < x.C ∧ oi < x.H / p ∧ oj < x.W / p then
        poolWindow (extractWindow x p b c (oi * p) (oj * p))
      else 0 from rfl, if_pos ⟨hb, hc, hoi, hoj⟩]
  exact poolWindow_eq_refPool _

/-- Claim C6, witness at the 1×1×2×2 all-ones input. -/
theorem forward_matches_reference_witness :
    ∃ y, FuzzyPoolingLayer.forward 2 X1 = some y ∧
      y.data 0 0 0 0 = refPool (extractWindow X1 2 0 0 (0 * 2) (0 * 2)) :=
  forward_matches_reference 2 X1 0 0 0 0 (by norm_num) (by decide) (by decide)
    (by decide) (by decide) (by decide) (by decide)

/-- Claim C7: on an input with both spatial extents divisible by the
pool size, the forward pass succeeds and the output dimensions are
exactly (B, C, H / pool_size, W / pool_size). -/
theorem forward_output_shape (p : ℕ) (x : Tensor4) (hp : 0 < p)
    (hH : p ∣ x.H) (hW : p ∣ x.W) :
    ∃ y, FuzzyPoolingLayer.forward p x = some y ∧
      y.B = x.B ∧ y.C = x.C ∧ y.H = x.H / p ∧ y.W = x.W / p :=
  ⟨_, forward_eq_some p x hp hH hW, rfl, rfl, rfl, rfl⟩

/-- Claim C7, witness at the 1×1×2×2 input with pool size 2. -/
theorem forward_output_shape_witness :
    ∃ y, FuzzyPoolingLayer.forward 2 X1 = some y ∧
      y.B = X1.B ∧ y.C = X1.C ∧ y.H = X1.H / 2 ∧ y.W = X1.W / 2 :=
  forward_output_shape 2 X1 (by norm_num) (by decide) (by decide)

/-- Claim C8: for non-negative regularization weights the exposed RegP
scalar is non-negative, and holding the input fixed it is monotonically
non-decreasing in the magnitude of the weight. -/
theorem regpLoss_nonneg_monotone (x : Tensor4) (p : ℕ) (l1 l2 : ℝ)
    (h1 : 0 ≤ l1) (h2 : 0 ≤ l2) (h12 : |l1| ≤ |l2|) :
    0 ≤ regpLoss l1 x p ∧ regpLoss l1 x p ≤ regpLoss l2 x p := by
  have hG := regpGrandTotal_nonneg x p
  have hinv : (0:ℝ) ≤ ((x.B * x.C : ℝ) ^ 2)⁻¹ := inv_nonneg.mpr (sq_nonneg _)
  have h12' : l1 ≤ l2 := by rwa [abs_of_nonneg h1, abs_of_nonneg h2] at h12
  rw [regpLoss_eq, regpLoss_eq, div_eq_mul_inv]
  constructor
  · exact mul_nonneg (mul_nonneg h1 hG) hinv
  · exact mul_le_mul_of_nonneg_right (mul_le_mul_of_nonneg_right h12' hG) hinv

/-- Claim C8, witness at the 2×1×2×2 all-ones input with weights 1 ≤ 2. -/
theorem regpLoss_nonneg_monotone_witness :
    0 ≤ regpLoss 1 X2 2 ∧ regpLoss 1 X2 2 ≤ regpLoss 2 X2 2 :=
  regpLoss_nonneg_monotone X2 2 1 2 (by norm_num) (by norm_num) (by norm_num)

/-- Claim C9: both guarded denominators of the pooling computation are
strictly positive on every window — `2 * std²` with
`std = window std + eps`, and the weight-normalization denominator
`membership sum + eps` — so no division by zero occurs even on a
zero-variance window. -/
theorem pooling_denominators_pos (w : List (List ℝ)) :
    0 < 2 * wStd w ^ 2 ∧ 0 < membSum w + eps :=
  ⟨mul_pos two_pos (pow_pos (wStd_pos w) 2),
    add_pos_of_nonneg_of_pos (membSum_nonneg w) eps_pos⟩

/-- Claim C10: the RegP layer's forward pass returns exactly the plain
layer's pooled output (paired with the regularization scalar): dropping
the scalar recovers the plain forward pass on every input. -/
theorem regp_forward_refines_plain (p : ℕ) (lam : ℝ) (x : Tensor4) :
    (FuzzyPoolingLayerRegP.forward p lam x).map Prod.fst =
      FuzzyPoolingLayer.forward p x := by
  rw [FuzzyPoolingLayerRegP.forward, FuzzyPoolingLayer.forward]
  by_cases h : (writesOk x.H p && writesOk x.W p) = true
  · rw [if_pos h, if_pos h]
    rfl
  · rw [if_neg h, if_neg h]
    rfl
